import Mathlib

/-!
Verification development for the `lsh` interactive shell (`src/main.c`).

The C program is shallowly embedded: the bounded history store, the
persistence routines, the tab-completion engine, the raw-mode line editor
loop and the command dispatcher are each translated into executable Lean
definitions that mirror the corresponding C functions line by line.
Machine side effects (terminal writes, the file system, `fork`) are either
abstracted away or made explicit parameters (directory listings, file
contents, an allocation budget).
-/

/-- Mirrors `#define HISTORY_MAX 1000` in `main.c`. -/
def HISTORY_MAX : Nat := 1000

/-- Mirrors `#define LSH_RL_BUFSIZE 1024` in `main.c`. -/
def LSH_RL_BUFSIZE : Nat := 1024

/-- Mirrors `#define LSH_TOK_BUFSIZE 64` in `main.c`. -/
def LSH_TOK_BUFSIZE : Nat := 64

/-- Embedding of `history_add` (`main.c` lines 516-526).  The `History`
struct's `commands` array (first `count` entries) is the list, `capacity`
is the `cap` argument (always `HISTORY_MAX` in the program).  When
`count >= capacity` the oldest entry (index 0) is freed and every other
entry shifts down by one (`hist.tail`), then the new command is appended.
There is no empty-string check in the C function. -/
def history_add (cap : Nat) (hist : List String) (command : String) : List String :=
  (if hist.length ≥ cap then hist.tail else hist) ++ [command]

lemma history_add_of_lt {cap : Nat} {hist : List String} (h : hist.length < cap)
    (command : String) : history_add cap hist command = hist ++ [command] := by
  unfold history_add
  rw [if_neg (by omega)]

lemma history_add_of_ge {cap : Nat} {hist : List String} (h : hist.length ≥ cap)
    (command : String) : history_add cap hist command = hist.tail ++ [command] := by
  unfold history_add
  rw [if_pos h]

/-- Folding `history_add` over a command sequence keeps exactly the last
`cap` commands: the result is `(h ++ cmds).drop (h.length + cmds.length - cap)`. -/
lemma foldl_history_add (cap : Nat) (hcap : 0 < cap) :
    ∀ (cmds h : List String), h.length ≤ cap →
      cmds.foldl (history_add cap) h = (h ++ cmds).drop (h.length + cmds.length - cap) := by
  intro cmds
  induction cmds with
  | nil =>
    intro h hle
    simp [Nat.sub_eq_zero_of_le hle]
  | cons c cs ih =>
    intro h hle
    rw [List.foldl_cons]
    by_cases hcapfull : h.length ≥ cap
    · have hfull : h.length = cap := le_antisymm hle hcapfull
      have hne : h ≠ [] := by
        intro hnil
        rw [hnil] at hfull
        simp at hfull
        omega
      rw [history_add_of_ge hcapfull]
      have htl : h.tail.length = cap - 1 := by rw [List.length_tail, hfull]
      have htail : (h.tail ++ [c]).length ≤ cap := by
        rw [List.length_append, htl]
        simp only [List.length_singleton]
        omega
      rw [ih _ htail, List.append_assoc, List.singleton_append]
      have hidx2 : (h.tail ++ [c]).length + cs.length - cap = cs.length := by
        rw [List.length_append, htl]
        simp only [List.length_singleton]
        omega
      have hidx : h.length + (c :: cs).length - cap = cs.length + 1 := by
        rw [hfull, List.length_cons]
        omega
      rw [hidx2, hidx]
      conv_rhs => rw [← List.cons_head!_tail hne]
      rw [List.cons_append, List.drop_succ_cons]
    · push_neg at hcapfull
      rw [history_add_of_lt hcapfull]
      have hlen : (h ++ [c]).length ≤ cap := by
        have h1 : ([c] : List String).length = 1 := rfl
        rw [List.length_append, h1]
        omega
      rw [ih _ hlen, List.append_assoc, List.singleton_append]
      have hidx : (h ++ [c]).length + cs.length - cap = h.length + (c :: cs).length - cap := by
        have h1 : ([c] : List String).length = 1 := rfl
        rw [List.length_append, h1, List.length_cons]
        omega
      rw [hidx]

/-- C1: History Store bounding.  For every sequence of appended non-empty
lines: (a) after any prefix of the appends the stored count never exceeds
the capacity `HISTORY_MAX`; (b) an append at capacity evicts exactly the
single oldest entry (index 0) and shifts the rest down by one; (c) the
final store is exactly the last `min N capacity` appended lines in their
original relative order (`cmds.drop (N - capacity)`), so for
`N > capacity` it holds exactly the last `capacity` lines. -/
theorem history_fifo_bounded (cmds : List String) (hne : ∀ c ∈ cmds, c ≠ "") :
    (∀ k : Nat, ((cmds.take k).foldl (history_add HISTORY_MAX) []).length ≤ HISTORY_MAX) ∧
    (∀ (h : List String) (c : String), h.length = HISTORY_MAX →
      history_add HISTORY_MAX h c = h.tail ++ [c]) ∧
    cmds.foldl (history_add HISTORY_MAX) [] = cmds.drop (cmds.length - HISTORY_MAX) ∧
    (HISTORY_MAX < cmds.length →
      (cmds.foldl (history_add HISTORY_MAX) []).length = HISTORY_MAX) := by
  have hcap : 0 < HISTORY_MAX := by norm_num [HISTORY_MAX]
  have hmain : ∀ l : List String,
      l.foldl (history_add HISTORY_MAX) [] = l.drop (l.length - HISTORY_MAX) := by
    intro l
    have := foldl_history_add HISTORY_MAX hcap l [] (by simp)
    simpa using this
  refine ⟨?_, ?_, hmain cmds, ?_⟩
  · intro k
    rw [hmain (cmds.take k)]
    simp only [List.length_drop]
    omega
  · intro h c hlen
    exact history_add_of_ge (le_of_eq hlen.symm) c
  · intro hlt
    rw [hmain cmds]
    simp only [List.length_drop]
    omega

/-- Witness for C1 at a concrete input. -/
theorem history_fifo_bounded_w :
    ["ls", "pwd", "exit"].foldl (history_add HISTORY_MAX) [] = ["ls", "pwd", "exit"] := by
  have h := (history_fifo_bounded ["ls", "pwd", "exit"] (by decide)).2.2.1
  rw [h]
  rfl

/-- Counterexample for C4 as stated: appending the empty string to an empty
history store changes the stored sequence (the C `history_add` has no
empty-string check), so the claimed no-op is false. -/
theorem history_add_empty_appends :
    history_add HISTORY_MAX [] "" ≠ ([] : List String) := by
  decide

/-- C4 (amended): `history_add` with the empty string is not a no-op — it
appends an empty entry exactly like any other line: below capacity the
length grows by one (so the sequence changes), and at capacity the oldest
entry is evicted, leaving the length at capacity.  (The spec's empty-line
no-op is enforced only at the call site `lsh_read_line`, which skips the
`history_add` call when the insertion point is 0.) -/
theorem history_add_empty_not_noop (hist : List String) (hlen : hist.length ≤ HISTORY_MAX) :
    ((history_add HISTORY_MAX hist "").length =
      if hist.length < HISTORY_MAX then hist.length + 1 else HISTORY_MAX) ∧
    (hist.length < HISTORY_MAX → history_add HISTORY_MAX hist "" ≠ hist) := by
  constructor
  · by_cases h : hist.length < HISTORY_MAX
    · rw [history_add_of_lt h, if_pos h]
      simp
    · push_neg at h
      have hfull : hist.length = HISTORY_MAX := le_antisymm hlen h
      have hpos : 0 < HISTORY_MAX := by norm_num [HISTORY_MAX]
      rw [history_add_of_ge h, if_neg (by omega), List.length_append,
        List.length_tail, hfull]
      simp only [List.length_singleton]
      omega
  · intro h heq
    have := congrArg List.length heq
    rw [history_add_of_lt h] at this
    simp at this

/-- Witness for C4's amended theorem at a concrete input. -/
theorem history_add_empty_not_noop_w : history_add HISTORY_MAX [] "" ≠ ([] : List String) :=
  (history_add_empty_not_noop [] (by norm_num [HISTORY_MAX])).2 (by norm_num [HISTORY_MAX])

/-- Embedding of C `strncmp(a, b, n) == 0` over NUL-free C strings
(represented as `List Char`): compares at most `n` characters, where the
end of a list stands for the NUL terminator (which compares unequal to
every real character). -/
def strncmpEq : List Char → List Char → Nat → Bool
  | _, _, 0 => true
  | [], [], _ + 1 => true
  | [], _ :: _, _ + 1 => false
  | _ :: _, [], _ + 1 => false
  | a :: as, b :: bs, n + 1 => a == b && strncmpEq as bs n

/-- The fixed builtin table `builtin_str` (`main.c` lines 263-276), in
source order. -/
def builtin_str : List String :=
  ["cd", "help", "exit", "ls", "pwd", "clear", "history", "cat", "grep", "touch", "echo", "rm"]

/-- The candidate test used by `get_completions`:
`strncmp(partial, cand, strlen(partial)) == 0`. -/
def matchesPfx (pfx cand : String) : Bool :=
  strncmpEq pfx.data cand.data pfx.data.length

/-- Embedding of the directory-scan loop of `get_completions` (`main.c`
lines 586-594): `while ((entry = readdir(dir)) && count < LSH_TOK_BUFSIZE)`
appends each matching entry to the accumulated candidates while the
candidate count is below `LSH_TOK_BUFSIZE`. -/
def addDirEntries (pfx : String) : List String → List String → List String
  | acc, [] => acc
  | acc, e :: es =>
    if acc.length < LSH_TOK_BUFSIZE then
      if matchesPfx pfx e then addDirEntries pfx (acc ++ [e]) es
      else addDirEntries pfx acc es
    else acc

/-- Embedding of `get_completions` (`main.c` lines 572-607).  The current
directory's entries are an explicit parameter (the C code re-reads the
directory on every call).  The builtin loop appends every matching builtin
name (it has no count bound; at most 12 can match), then the directory
loop appends matching entries while the count is below `LSH_TOK_BUFSIZE`. -/
def get_completions (pfx : String) (dirEntries : List String) : List String :=
  addDirEntries pfx (builtin_str.filter (fun b => matchesPfx pfx b)) dirEntries

lemma strncmpEq_self_length : ∀ (p e : List Char), strncmpEq p e p.length = p.isPrefixOf e := by
  intro p
  induction p with
  | nil => intro e; cases e <;> rfl
  | cons a as ih =>
    intro e
    cases e with
    | nil => rfl
    | cons b bs =>
      simp only [List.length_cons, strncmpEq, List.isPrefixOf, ih]

lemma matchesPfx_isPrefixOf (pfx cand : String) :
    matchesPfx pfx cand = pfx.data.isPrefixOf cand.data := by
  unfold matchesPfx
  exact strncmpEq_self_length pfx.data cand.data

/-- The directory loop equals "filter then take what fits below the cap". -/
lemma addDirEntries_eq (pfx : String) :
    ∀ (es acc : List String),
      addDirEntries pfx acc es =
        acc ++ (es.filter (fun e => matchesPfx pfx e)).take (LSH_TOK_BUFSIZE - acc.length) := by
  intro es
  induction es with
  | nil => intro acc; simp [addDirEntries]
  | cons e es ih =>
    intro acc
    by_cases hlt : acc.length < LSH_TOK_BUFSIZE
    · by_cases hm : matchesPfx pfx e
      · rw [addDirEntries, if_pos hlt, if_pos hm, ih]
        rw [List.filter_cons_of_pos hm]
        have hstep : LSH_TOK_BUFSIZE - acc.length = (LSH_TOK_BUFSIZE - (acc ++ [e]).length) + 1 := by
          have h1 : ([e] : List String).length = 1 := rfl
          rw [List.length_append, h1]
          omega
        rw [hstep, List.take_succ_cons, List.append_assoc, List.singleton_append]
      · rw [addDirEntries, if_pos hlt, if_neg hm, ih, List.filter_cons_of_neg hm]
    · push_neg at hlt
      rw [addDirEntries, if_neg (by omega)]
      have hz : LSH_TOK_BUFSIZE - acc.length = 0 := by omega
      rw [hz, List.take_zero, List.append_nil]

/-- Counterexample for C5 as stated: with partial `"f"` and a directory of
65 entries `f0 .. f64` (all starting with `"f"`), the entry `f64` starts
with the partial yet does not appear in the result — the directory loop
stops appending once 64 candidates are collected. -/
theorem get_completions_omits_match :
    ("f64" ∈ (List.range 65).map (fun i => "f" ++ toString i)) ∧
    matchesPfx ("f") ("f64") = true ∧
    "f64" ∉ get_completions ("f") ((List.range 65).map (fun i => "f" ++ toString i)) := by
  decide

/-- C5 (amended): every candidate returned by `get_completions` starts with
the partial as a literal prefix; and provided the total number of matching
builtin names and matching directory entries is at most `LSH_TOK_BUFSIZE`
(64), the result is exactly the matching builtins in table order followed
by the matching directory entries in enumeration order, so each match
occurrence appears exactly once.  Matching directory entries beyond the
64-candidate cap are omitted. -/
theorem get_completions_prefix_sound (pfx : String) (dirEntries : List String) :
    (∀ c ∈ get_completions pfx dirEntries, pfx.data.isPrefixOf c.data = true) ∧
    ((builtin_str.filter (fun b => matchesPfx pfx b)).length +
        (dirEntries.filter (fun e => matchesPfx pfx e)).length ≤ LSH_TOK_BUFSIZE →
      get_completions pfx dirEntries =
        builtin_str.filter (fun b => matchesPfx pfx b) ++
          dirEntries.filter (fun e => matchesPfx pfx e)) := by
  constructor
  · intro c hc
    rw [get_completions, addDirEntries_eq] at hc
    rcases List.mem_append.1 hc with hb | hd
    · have := List.of_mem_filter hb
      rw [← matchesPfx_isPrefixOf]
      exact this
    · have hd' := List.take_subset _ _ hd
      have := List.of_mem_filter hd'
      rw [← matchesPfx_isPrefixOf]
      exact this
  · intro hle
    rw [get_completions, addDirEntries_eq]
    congr 1
    exact List.take_of_length_le (by omega)

/-- Witness for C5's amended theorem at a concrete input. -/
theorem get_completions_prefix_sound_w :
    get_completions ("c") (["ca.txt"]) = ["cd", "clear", "cat", "ca.txt"] := by
  have h := (get_completions_prefix_sound ("c") (["ca.txt"])).2 (by decide)
  rw [h]
  decide

/-- C10: implicit completion-result cap.  For every partial and every
directory listing, `get_completions` returns at most `LSH_TOK_BUFSIZE`
(64) candidates: the result is the matching builtins followed by only as
many matching directory entries as fit below the 64-candidate bound, so
directory entries beyond that limit are silently omitted. -/
theorem get_completions_capped (pfx : String) (dirEntries : List String) :
    (get_completions pfx dirEntries).length ≤ LSH_TOK_BUFSIZE ∧
    get_completions pfx dirEntries =
      builtin_str.filter (fun b => matchesPfx pfx b) ++
        (dirEntries.filter (fun e => matchesPfx pfx e)).take
          (LSH_TOK_BUFSIZE - (builtin_str.filter (fun b => matchesPfx pfx b)).length) := by
  have heq := addDirEntries_eq pfx dirEntries (builtin_str.filter (fun b => matchesPfx pfx b))
  refine ⟨?_, heq⟩
  rw [get_completions, heq]
  have hb : (builtin_str.filter (fun b => matchesPfx pfx b)).length ≤ 12 := by
    have := List.length_filter_le (fun b => matchesPfx pfx b) builtin_str
    simpa [builtin_str] using this
  have ht : ((dirEntries.filter (fun e => matchesPfx pfx e)).take
      (LSH_TOK_BUFSIZE - (builtin_str.filter (fun b => matchesPfx pfx b)).length)).length ≤
      LSH_TOK_BUFSIZE - (builtin_str.filter (fun b => matchesPfx pfx b)).length := by
    simpa using List.length_take_le _ _
  rw [List.length_append]
  have hbs : LSH_TOK_BUFSIZE = 64 := rfl
  omega

/-- Embedding of `history_save` (`main.c` lines 538-548): the persisted
file content, produced by writing each stored command followed by a
newline, oldest first. -/
def history_save (hist : List String) : List Char :=
  (hist.map (fun s => s.data ++ ['\n'])).join

/-- Embedding of one `fgets(buffer, 1024, fp)` call: reads at most 1023
characters, stopping after the first newline. -/
def fgetsLine : Nat → List Char → List Char
  | 0, _ => []
  | _ + 1, [] => []
  | n + 1, c :: cs => if c = '\n' then [c] else c :: fgetsLine n cs

/-- The `while (fgets(...))` loop of `history_load`, split into the
successive `fgets` chunks of the file.  The fuel argument bounds the
number of iterations; every iteration on a non-empty remainder consumes
at least one character, so `file.length` fuel is always enough. -/
def fgetsChunksAux : Nat → List Char → List (List Char)
  | 0, _ => []
  | _ + 1, [] => []
  | fuel + 1, c :: cs =>
    fgetsLine 1023 (c :: cs) ::
      fgetsChunksAux fuel ((c :: cs).drop (fgetsLine 1023 (c :: cs)).length)

/-- The successive `fgets` chunks of a file. -/
def fgetsChunks (file : List Char) : List (List Char) :=
  fgetsChunksAux file.length file

/-- Embedding of `history_load` (`main.c` lines 550-560): for each `fgets`
chunk, `buffer[strcspn(buffer, "\n")] = 0` truncates at the first newline
and the result is passed to `history_add`.  The file content is an
explicit parameter. -/
def history_load (hist : List String) (file : List Char) : List String :=
  (fgetsChunks file).foldl
    (fun h chunk => history_add HISTORY_MAX h ⟨chunk.takeWhile (fun c => c != '\n')⟩) hist

lemma takeWhile_append_all {α : Type} (p : α → Bool) (l rest : List α)
    (h : ∀ a ∈ l, p a = true) :
    (l ++ rest).takeWhile p = l ++ rest.takeWhile p := by
  induction l with
  | nil => simp
  | cons x xs ih =>
    simp only [List.cons_append, List.takeWhile_cons, h x (List.mem_cons_self x xs)]
    rw [ih (fun a ha => h a (List.mem_cons_of_mem x ha))]
    simp

lemma fgetsLine_full : ∀ (l : List Char) (n : Nat) (rest : List Char),
    '\n' ∉ l → l.length < n → fgetsLine n (l ++ '\n' :: rest) = l ++ ['\n'] := by
  intro l
  induction l with
  | nil =>
    intro n rest _ hn
    match n, hn with
    | m + 1, _ => simp [fgetsLine]
  | cons c cs ih =>
    intro n rest hnotin hlen
    match n, hlen with
    | m + 1, hlen =>
      have hc : c ≠ '\n' := fun h => hnotin (h ▸ List.mem_cons_self c cs)
      simp only [List.cons_append, fgetsLine, if_neg hc]
      congr 1
      exact ih m rest (fun h => hnotin (List.mem_cons_of_mem c h)) (by
        simp only [List.length_cons] at hlen
        omega)

lemma fgetsChunksAux_save : ∀ (hist : List String) (fuel : Nat),
    (∀ s ∈ hist, '\n' ∉ s.data ∧ s.data.length ≤ 1022) →
    (history_save hist).length ≤ fuel →
    fgetsChunksAux fuel (history_save hist) = hist.map (fun s => s.data ++ ['\n']) := by
  intro hist
  induction hist with
  | nil =>
    intro fuel _ _
    cases fuel <;> simp [history_save, fgetsChunksAux]
  | cons s rest ih =>
    intro fuel hok hfuel
    have hsave : history_save (s :: rest) = s.data ++ '\n' :: history_save rest := by
      simp [history_save]
    have hlen1 : 1 ≤ (history_save (s :: rest)).length := by
      rw [hsave]
      simp
      omega
    cases fuel with
    | zero =>
      exfalso
      omega
    | succ f =>
      have hok1 := hok s (List.mem_cons_self s rest)
      have hchunk : fgetsLine 1023 (history_save (s :: rest)) = s.data ++ ['\n'] := by
        rw [hsave]
        exact fgetsLine_full s.data 1023 (history_save rest) hok1.1 (by omega)
      have hcons : ∃ c cs, history_save (s :: rest) = c :: cs := by
        rcases h : history_save (s :: rest) with _ | ⟨c, cs⟩
        · rw [h] at hlen1
          simp at hlen1
        · exact ⟨c, cs, rfl⟩
      rcases hcons with ⟨c, cs, hcs⟩
      rw [hcs] at hchunk ⊢
      rw [fgetsChunksAux, hchunk]
      have hdrop : (c :: cs).drop (s.data ++ ['\n']).length = history_save rest := by
        rw [← hcs, hsave]
        have : s.data ++ '\n' :: history_save rest = (s.data ++ ['\n']) ++ history_save rest := by
          rw [List.append_assoc, List.singleton_append]
        rw [this, List.drop_left]
      rw [hdrop, List.map_cons]
      congr 1
      apply ih f (fun t ht => hok t (List.mem_cons_of_mem s ht))
      have : (history_save (s :: rest)).length = s.data.length + 1 + (history_save rest).length := by
        rw [hsave]
        simp
        omega
      rw [hcs] at this hfuel
      simp only [List.length_cons] at this hfuel
      omega

lemma strip_line (s : String) (hnotin : '\n' ∉ s.data) :
    (s.data ++ ['\n']).takeWhile (fun c => c != '\n') = s.data := by
  rw [takeWhile_append_all _ _ _ (fun a ha => by
    simp only [bne_iff_ne, ne_eq]
    intro h
    exact hnotin (h ▸ ha))]
  simp

lemma load_chunks : ∀ (l acc : List String),
    (∀ s ∈ l, '\n' ∉ s.data) →
    acc.length + l.length ≤ HISTORY_MAX →
    (l.map (fun s => s.data ++ ['\n'])).foldl
      (fun h chunk => history_add HISTORY_MAX h ⟨chunk.takeWhile (fun c => c != '\n')⟩) acc
    = acc ++ l := by
  intro l
  induction l with
  | nil =>
    intro acc _ _
    simp
  | cons s rest ih =>
    intro acc hok hle
    simp only [List.map_cons, List.foldl_cons]
    rw [strip_line s (hok s (List.mem_cons_self s rest))]
    have hmk : (⟨s.data⟩ : String) = s := by
      cases s
      rfl
    rw [hmk]
    simp only [List.length_cons] at hle
    rw [history_add_of_lt (by omega)]
    rw [ih (acc ++ [s]) (fun t ht => hok t (List.mem_cons_of_mem s ht)) (by
      have h1 : ([s] : List String).length = 1 := rfl
      rw [List.length_append, h1]
      omega)]
    rw [List.append_assoc, List.singleton_append]

/-- Counterexample for C6 as stated: a store whose single command contains
an embedded newline does not round-trip — `save` writes it as two file
lines and a fresh `load` reads back two separate commands. -/
theorem round_trip_fails_on_newline :
    history_load [] (history_save ["a\nb"]) ≠ ["a\nb"] := by
  decide

/-- C6 (amended): `save()` followed by a fresh `load()` into an empty store
reproduces the original sequence exactly (order and content) when the
original length is at most the capacity, provided every stored command
contains no newline character and is shorter than the 1024-byte `fgets`
read buffer (at most 1022 characters, so the command plus its trailing
newline fits in one `fgets` call). -/
theorem history_round_trip (hist : List String)
    (hlen : hist.length ≤ HISTORY_MAX)
    (hok : ∀ s ∈ hist, '\n' ∉ s.data ∧ s.data.length ≤ 1022) :
    history_load [] (history_save hist) = hist := by
  unfold history_load fgetsChunks
  rw [fgetsChunksAux_save hist (history_save hist).length hok (le_refl _)]
  rw [load_chunks hist [] (fun s hs => (hok s hs).1) (by simpa using hlen)]
  simp

/-- Witness for C6's amended theorem at a concrete input. -/
theorem history_round_trip_w :
    history_load [] (history_save ["ls", "pwd"]) = ["ls", "pwd"] :=
  history_round_trip ["ls", "pwd"] (by norm_num [HISTORY_MAX]) (by decide)

/-- Instrumentation recording which action `lsh_execute` dispatches to. -/
inductive ExecAction where
  | empty
  | builtin (name : String)
  | launch
deriving DecidableEq

/-- Builtin `lsh_cd` (`main.c` lines 299-310): side effects (`chdir`, error
prints) abstracted; returns 1 on every path. -/
def lsh_cd (_args : List String) : Nat := 1

/-- Builtin `lsh_help` (`main.c` lines 313-325): printing abstracted;
returns 1. -/
def lsh_help (_args : List String) : Nat := 1

/-- Builtin `lsh_exit` (`main.c` lines 327-330): returns 0, the "stop"
signal, on its single path. -/
def lsh_exit (_args : List String) : Nat := 0

/-- Builtin `lsh_ls` (`main.c` lines 333-355): directory I/O abstracted;
returns 1 on every path. -/
def lsh_ls (_args : List String) : Nat := 1

/-- Builtin `lsh_pwd` (`main.c` lines 358-368): returns 1 on every path. -/
def lsh_pwd (_args : List String) : Nat := 1

/-- Builtin `lsh_clear` (`main.c` lines 371-376): returns 1. -/
def lsh_clear (_args : List String) : Nat := 1

/-- Builtin `lsh_history` (`main.c` lines 563-568): printing abstracted;
returns 1. -/
def lsh_history (_args : List String) : Nat := 1

/-- Builtin `lsh_cat` (`main.c` lines 379-399): file I/O abstracted;
returns 1 on every path. -/
def lsh_cat (_args : List String) : Nat := 1

/-- Builtin `lsh_grep` (`main.c` lines 402-426): file I/O abstracted;
returns 1 on every path. -/
def lsh_grep (_args : List String) : Nat := 1

/-- Builtin `lsh_touch` (`main.c` lines 429-442): file I/O abstracted;
returns 1 on every path. -/
def lsh_touch (_args : List String) : Nat := 1

/-- Builtin `lsh_echo` (`main.c` lines 445-473): printing and its ad hoc
redirection abstracted; returns 1 on every path. -/
def lsh_echo (_args : List String) : Nat := 1

/-- Builtin `lsh_rm` (`main.c` lines 476-487): file removal abstracted;
returns 1 on every path. -/
def lsh_rm (_args : List String) : Nat := 1

/-- External launch `lsh_launch` (`main.c` lines 228-256): fork/exec/wait
abstracted; returns 1 on every path. -/
def lsh_launch (_args : List String) : Nat := 1

/-- The `builtin_func` table (`main.c` lines 278-291), aligned with
`builtin_str`. -/
def builtin_func : List (List String → Nat) :=
  [lsh_cd, lsh_help, lsh_exit, lsh_ls, lsh_pwd, lsh_clear, lsh_history,
   lsh_cat, lsh_grep, lsh_touch, lsh_echo, lsh_rm]

/-- The builtin-lookup loop of `lsh_execute` (`main.c` lines 499-504):
walk the table in order, on the first exact `strcmp` match invoke that
builtin on the full token list; if no name matches, launch an external
process. -/
def execSearch : List (String × (List String → Nat)) → List String → String → Nat × ExecAction
  | [], args, _ => (lsh_launch args, ExecAction.launch)
  | (name, f) :: rest, args, a0 =>
    if a0 = name then (f args, ExecAction.builtin name) else execSearch rest args a0

/-- Embedding of `lsh_execute` (`main.c` lines 490-505), instrumented with
the dispatched action.  An empty token list returns 1 immediately, before
any builtin or launch is reached. -/
def lsh_execute : List String → Nat × ExecAction
  | [] => (1, ExecAction.empty)
  | a0 :: rest => execSearch (builtin_str.zip builtin_func) (a0 :: rest) a0

/-- C8: dispatcher continue/stop contract.  An empty token list signals
"continue" (1) and dispatches to nothing (no side effects); a first token
equal to a builtin name invokes that builtin on the full token list and
propagates its signal, where `exit` is the only builtin that signals
"stop" (0) and every other builtin signals "continue" (1); a first token
matching no builtin launches an external process, which also signals
"continue". -/
theorem lsh_execute_contract :
    (lsh_execute [] = (1, ExecAction.empty)) ∧
    (∀ rest : List String, lsh_execute ("exit" :: rest) = (0, ExecAction.builtin ("exit"))) ∧
    (∀ (a0 : String) (rest : List String), a0 ∈ builtin_str → a0 ≠ "exit" →
      lsh_execute (a0 :: rest) = (1, ExecAction.builtin a0)) ∧
    (∀ (a0 : String) (rest : List String), a0 ∉ builtin_str →
      lsh_execute (a0 :: rest) = (1, ExecAction.launch)) := by
  refine ⟨rfl, fun rest => rfl, ?_, ?_⟩
  · intro a0 rest hmem hnexit
    simp only [builtin_str, List.mem_cons, List.not_mem_nil, or_false] at hmem
    rcases hmem with h | h | h | h | h | h | h | h | h | h | h | h <;>
      subst h <;> first | rfl | exact absurd rfl hnexit
  · intro a0 rest hmem
    simp only [builtin_str, List.mem_cons, List.not_mem_nil, or_false, not_or] at hmem
    obtain ⟨h1, h2, h3, h4, h5, h6, h7, h8, h9, h10, h11, h12⟩ := hmem
    simp only [lsh_execute, builtin_str, builtin_func, List.zip_cons_cons, execSearch,
      List.zip_nil_right, if_neg h1, if_neg h2, if_neg h3, if_neg h4, if_neg h5,
      if_neg h6, if_neg h7, if_neg h8, if_neg h9, if_neg h10, if_neg h11, if_neg h12]
    rfl

/-- Witness for C8 at concrete inputs. -/
theorem lsh_execute_contract_w :
    lsh_execute [] = (1, ExecAction.empty) ∧
    lsh_execute (["exit"]) = (0, ExecAction.builtin ("exit")) ∧
    lsh_execute (["cd"]) = (1, ExecAction.builtin ("cd")) ∧
    lsh_execute (["nosuchcmd"]) = (1, ExecAction.launch) :=
  ⟨lsh_execute_contract.1,
   lsh_execute_contract.2.1 [],
   lsh_execute_contract.2.2.1 "cd" [] (by decide) (by decide),
   lsh_execute_contract.2.2.2 "nosuchcmd" [] (by decide)⟩

/-- State of the `lsh_read_line` loop (`main.c` lines 80-178).  `mem` is
the backing character buffer of length `bufsize` (malloc'd memory;
uninitialized cells are modelled as `'#'`), `position` the insertion
point, `histPos` the history cursor `history_pos`.  `termRaw` models the
terminal mode slot (`true` = raw).  `oob` is instrumentation recording
whether any buffer write fell outside `[0, bufsize)`; `histOob` records
whether any history recall read an index outside `[0, count)`.  Neither
flag is ever cleared. -/
structure EditState where
  mem : List Char
  bufsize : Nat
  position : Nat
  histPos : Nat
  termRaw : Bool
  oob : Bool
  histOob : Bool

/-- A single `buffer[i] = c` store, bounds-instrumented. -/
def memWrite (s : EditState) (i : Nat) (c : Char) : EditState :=
  if i < s.bufsize then { s with mem := s.mem.set i c } else { s with oob := true }

/-- C `strcpy(buffer + i, str)`: writes the characters of `str` starting
at index `i`, then the NUL terminator. -/
def strcpyAt : EditState → Nat → List Char → EditState
  | s, i, [] => memWrite s i '\x00'
  | s, i, c :: cs => strcpyAt (memWrite s i c) (i + 1) cs

/-- The buffer read as a C string: characters up to the first NUL. -/
def cstr (s : EditState) : String :=
  ⟨s.mem.takeWhile (fun c => c != '\x00')⟩

/-- Shared body of the arrow-key handlers:
`strcpy(buffer, shell_history->commands[idx]); position = strlen(buffer);`
with `history_pos = idx`.  An out-of-range index sets `histOob`. -/
def recallEntry (hist : List String) (s : EditState) (idx : Nat) : EditState :=
  if h : idx < hist.length then
    { strcpyAt { s with histPos := idx } 0 (hist.get ⟨idx, h⟩).data with
        position := (hist.get ⟨idx, h⟩).length }
  else
    { s with histPos := idx, histOob := true }

/-- Up-arrow handler (`main.c` lines 105-113): recall one entry older when
`history_pos > 0`, otherwise do nothing. -/
def upArrow (hist : List String) (s : EditState) : EditState :=
  if s.histPos > 0 then recallEntry hist s (s.histPos - 1) else s

/-- Down-arrow handler (`main.c` lines 114-128).  The first branch moves
one entry newer when `history_pos < count - 1`.  The source's second
branch (`else if` with the *same* condition, commented "Clear line if at
newest command") is reproduced verbatim; it is unreachable. -/
def downArrow (hist : List String) (s : EditState) : EditState :=
  if s.histPos < hist.length - 1 then recallEntry hist s (s.histPos + 1)
  else if s.histPos < hist.length - 1 then
    { memWrite s 0 '\x00' with position := 0 }
  else s

/-- Escape-sequence dispatch (`main.c` lines 99-131): after `ESC`, two
more characters are read; `[A` is up, `[B` is down, anything else is
consumed with no effect. -/
def escHandle (hist : List String) (s : EditState) (c0 c1 : Nat) : EditState :=
  if c0 = 91 then
    if c1 = 65 then upArrow hist s
    else if c1 = 66 then downArrow hist s
    else s
  else s

/-- Tab handler (`main.c` lines 142-151): complete from the buffer's
current C-string contents; when at least one candidate exists, `strcpy`
the first candidate into the buffer and move the insertion point to its
end. -/
def tabHandle (dir : List String) (s : EditState) : EditState :=
  match get_completions (cstr s) dir with
  | [] => s
  | c0 :: _ => { strcpyAt s 0 c0.data with position := c0.length }

/-- Backspace handler (`main.c` lines 153-159): move the insertion point
back one place when it is positive. -/
def backspaceHandle (s : EditState) : EditState :=
  if s.position > 0 then { s with position := s.position - 1 } else s

/-- Printable-character insert (`main.c` lines 161-165): for `c >= 32`
store the character at the insertion point and advance it; other
characters fall through unhandled. -/
def insertHandle (c : Nat) (s : EditState) : EditState :=
  if 32 ≤ c then
    { memWrite s s.position (Char.ofNat c) with position := s.position + 1 }
  else s

/-- Result of a `lsh_read_line` run: a returned line (with the history
after the conditional `history_add` and the final state), a fatal
`exit(EXIT_FAILURE)` on allocation failure, or exhaustion of the supplied
input (the C loop would block reading the next character). -/
inductive ReadResult where
  | line (l : String) (hist : List String) (s : EditState)
  | fatal (s : EditState)
  | pending (s : EditState)

/-- The state carried by a `ReadResult`. -/
def ReadResult.state : ReadResult → EditState
  | ReadResult.line _ _ s => s
  | ReadResult.fatal s => s
  | ReadResult.pending s => s

/-- Whether the run ended in `exit(EXIT_FAILURE)`. -/
def ReadResult.isFatal : ReadResult → Bool
  | ReadResult.fatal _ => true
  | _ => false

/-- Newline handler (`main.c` lines 132-140): terminate the buffer,
restore cooked mode, append the finished line to history when the
insertion point is positive, and return the line. -/
def newlineHandle (hist : List String) (s : EditState) : ReadResult :=
  let s1 := memWrite s s.position '\x00'
  let s2 := { s1 with termRaw := false }
  let line := cstr s2
  ReadResult.line line (if s2.position > 0 then history_add HISTORY_MAX hist line else hist) s2

/-- The character-driven loop of `lsh_read_line` (`main.c` lines 95-177).
`limit` is the allocation budget: `realloc` to a new size succeeds iff the
new size is within the budget.  The growth check (`position >= bufsize`)
runs after every non-`continue` character, exactly as in the source. -/
def readLoop (hist dir : List String) (limit : Nat) : EditState → List Nat → ReadResult
  | s, [] => ReadResult.pending s
  | s, c :: rest =>
    if c = 27 then
      match rest with
      | c0 :: c1 :: rest2 => readLoop hist dir limit (escHandle hist s c0 c1) rest2
      | _ => ReadResult.pending s
    else if c = 10 then
      newlineHandle hist s
    else if c = 9 then
      readLoop hist dir limit (tabHandle dir s) rest
    else if c = 127 then
      readLoop hist dir limit (backspaceHandle s) rest
    else
      let s1 := insertHandle c s
      if s1.bufsize ≤ s1.position then
        if s1.bufsize + LSH_RL_BUFSIZE ≤ limit then
          readLoop hist dir limit
            { s1 with bufsize := s1.bufsize + LSH_RL_BUFSIZE,
                      mem := s1.mem ++ List.replicate LSH_RL_BUFSIZE '#' } rest
        else ReadResult.fatal s1
      else readLoop hist dir limit s1 rest

/-- Embedding of `lsh_read_line` (`main.c` lines 80-178).  The initial
`malloc(LSH_RL_BUFSIZE)` is checked *before* `enable_raw_mode()`, so a
failed initial allocation exits with the terminal still cooked; otherwise
raw mode is entered and the loop runs on the supplied input bytes.
`history_pos` starts at `shell_history->count`. -/
def lsh_read_line (hist dir : List String) (limit : Nat) (input : List Nat) : ReadResult :=
  if LSH_RL_BUFSIZE ≤ limit then
    readLoop hist dir limit
      { mem := List.replicate LSH_RL_BUFSIZE '#', bufsize := LSH_RL_BUFSIZE,
        position := 0, histPos := hist.length, termRaw := true,
        oob := false, histOob := false } input
  else
    ReadResult.fatal
      { mem := [], bufsize := 0, position := 0, histPos := hist.length,
        termRaw := false, oob := false, histOob := false }

/-- C2 (code bug): with history `["ls", "pwd"]` and a fresh line, the key
sequence up, up, down, down leaves the buffer showing `"pwd"` with
insertion point 3 — not the empty line the spec requires.  The source's
clear-line branch repeats the `history_pos < count - 1` condition of the
move-newer branch (its comment says "Clear line if at newest command"),
so it can never run. -/
theorem down_at_newest_keeps_buffer :
    cstr ((lsh_read_line ["ls", "pwd"] [] 1024
        [27, 91, 65, 27, 91, 65, 27, 91, 66, 27, 91, 66]).state) = "pwd" ∧
    ((lsh_read_line ["ls", "pwd"] [] 1024
        [27, 91, 65, 27, 91, 65, 27, 91, 66, 27, 91, 66]).state).position = 3 := by
  decide

set_option maxRecDepth 100000 in
/-- C3 (code bug): typing 1024 printable characters with an allocation
budget that makes the `realloc` fail drives `lsh_read_line` into the
fatal `exit(EXIT_FAILURE)` path with the terminal still in raw mode —
`disable_raw_mode()` is never called on the allocation-failure exit, so
the program leaves line-reading in raw mode, contradicting the claimed
invariant. -/
theorem fatal_realloc_leaves_raw :
    (lsh_read_line [] [] 1024 (List.replicate 1024 65)).isFatal = true ∧
    ((lsh_read_line [] [] 1024 (List.replicate 1024 65)).state).termRaw = true := by
  decide

@[simp] lemma memWrite_histPos (s : EditState) (i : Nat) (c : Char) :
    (memWrite s i c).histPos = s.histPos := by
  unfold memWrite
  split <;> rfl

@[simp] lemma memWrite_histOob (s : EditState) (i : Nat) (c : Char) :
    (memWrite s i c).histOob = s.histOob := by
  unfold memWrite
  split <;> rfl

@[simp] lemma strcpyAt_histPos : ∀ (l : List Char) (s : EditState) (i : Nat),
    (strcpyAt s i l).histPos = s.histPos := by
  intro l
  induction l with
  | nil =>
    intro s i
    simp [strcpyAt]
  | cons c cs ih =>
    intro s i
    rw [strcpyAt, ih, memWrite_histPos]

@[simp] lemma strcpyAt_histOob : ∀ (l : List Char) (s : EditState) (i : Nat),
    (strcpyAt s i l).histOob = s.histOob := by
  intro l
  induction l with
  | nil =>
    intro s i
    simp [strcpyAt]
  | cons c cs ih =>
    intro s i
    rw [strcpyAt, ih, memWrite_histOob]

lemma recallEntry_inv (hist : List String) (s : EditState) (idx : Nat)
    (hidx : idx < hist.length) (h2 : s.histOob = false) :
    (recallEntry hist s idx).histPos ≤ hist.length ∧
    (recallEntry hist s idx).histOob = false := by
  unfold recallEntry
  rw [dif_pos hidx]
  constructor
  · show (strcpyAt { s with histPos := idx } 0 _).histPos ≤ hist.length
    rw [strcpyAt_histPos]
    show idx ≤ hist.length
    omega
  · show (strcpyAt { s with histPos := idx } 0 _).histOob = false
    rw [strcpyAt_histOob]
    exact h2

lemma upArrow_inv (hist : List String) (s : EditState)
    (h1 : s.histPos ≤ hist.length) (h2 : s.histOob = false) :
    (upArrow hist s).histPos ≤ hist.length ∧ (upArrow hist s).histOob = false := by
  unfold upArrow
  split
  · next hpos => exact recallEntry_inv hist s (s.histPos - 1) (by omega) h2
  · exact ⟨h1, h2⟩

lemma downArrow_inv (hist : List String) (s : EditState)
    (h1 : s.histPos ≤ hist.length) (h2 : s.histOob = false) :
    (downArrow hist s).histPos ≤ hist.length ∧ (downArrow hist s).histOob = false := by
  unfold downArrow
  split
  · next hpos => exact recallEntry_inv hist s (s.histPos + 1) (by omega) h2
  · exact ⟨h1, h2⟩

lemma escHandle_inv (hist : List String) (s : EditState) (c0 c1 : Nat)
    (h1 : s.histPos ≤ hist.length) (h2 : s.histOob = false) :
    (escHandle hist s c0 c1).histPos ≤ hist.length ∧
    (escHandle hist s c0 c1).histOob = false := by
  unfold escHandle
  split
  · split
    · exact upArrow_inv hist s h1 h2
    · split
      · exact downArrow_inv hist s h1 h2
      · exact ⟨h1, h2⟩
  · exact ⟨h1, h2⟩

lemma tabHandle_inv (hist dir : List String) (s : EditState)
    (h1 : s.histPos ≤ hist.length) (h2 : s.histOob = false) :
    (tabHandle dir s).histPos ≤ hist.length ∧ (tabHandle dir s).histOob = false := by
  unfold tabHandle
  split
  · exact ⟨h1, h2⟩
  · constructor
    · show (strcpyAt s 0 _).histPos ≤ hist.length
      rw [strcpyAt_histPos]
      exact h1
    · show (strcpyAt s 0 _).histOob = false
      rw [strcpyAt_histOob]
      exact h2

lemma readLoop_nil (hist dir : List String) (limit : Nat) (s : EditState) :
    readLoop hist dir limit s [] = ReadResult.pending s := rfl

lemma readLoop_recall_inv : ∀ (n : Nat) (input : List Nat) (s : EditState)
    (hist dir : List String) (limit : Nat), input.length ≤ n →
    s.histPos ≤ hist.length → s.histOob = false →
    (readLoop hist dir limit s input).state.histPos ≤ hist.length ∧
    (readLoop hist dir limit s input).state.histOob = false := by
  intro n
  induction n with
  | zero =>
    intro input s hist dir limit hlen h1 h2
    have hnil : input = [] := List.eq_nil_of_length_eq_zero (by omega)
    subst hnil
    exact ⟨h1, h2⟩
  | succ n ih =>
    intro input s hist dir limit hlen h1 h2
    rcases input with _ | ⟨c, rest⟩
    · exact ⟨h1, h2⟩
    · simp only [List.length_cons] at hlen
      rw [readLoop.eq_def]
      dsimp only
      by_cases h27 : c = 27
      · rw [if_pos h27]
        rcases rest with _ | ⟨c0, rest1⟩
        · exact ⟨h1, h2⟩
        · rcases rest1 with _ | ⟨c1, rest2⟩
          · exact ⟨h1, h2⟩
          · have hesc := escHandle_inv hist s c0 c1 h1 h2
            have hlen2 : rest2.length ≤ n := by
              simp only [List.length_cons] at hlen
              omega
            exact ih rest2 _ hist dir limit hlen2 hesc.1 hesc.2
      · rw [if_neg h27]
        by_cases h10 : c = 10
        · rw [if_pos h10]
          unfold newlineHandle
          constructor
          · show (memWrite s s.position _).histPos ≤ hist.length
            rw [memWrite_histPos]
            exact h1
          · show (memWrite s s.position _).histOob = false
            rw [memWrite_histOob]
            exact h2
        · rw [if_neg h10]
          by_cases h9 : c = 9
          · rw [if_pos h9]
            have htab := tabHandle_inv hist dir s h1 h2
            exact ih rest _ hist dir limit (by omega) htab.1 htab.2
          · rw [if_neg h9]
            by_cases h127 : c = 127
            · rw [if_pos h127]
              have hbs : (backspaceHandle s).histPos ≤ hist.length ∧
                  (backspaceHandle s).histOob = false := by
                unfold backspaceHandle
                split <;> exact ⟨h1, h2⟩
              exact ih rest _ hist dir limit (by omega) hbs.1 hbs.2
            · rw [if_neg h127]
              have hins : (insertHandle c s).histPos ≤ hist.length ∧
                  (insertHandle c s).histOob = false := by
                unfold insertHandle
                split
                · constructor
                  · show (memWrite s s.position _).histPos ≤ hist.length
                    rw [memWrite_histPos]
                    exact h1
                  · show (memWrite s s.position _).histOob = false
                    rw [memWrite_histOob]
                    exact h2
                · exact ⟨h1, h2⟩
              split
              · split
                · exact ih rest _ hist dir limit (by omega) hins.1 hins.2
                · exact hins
              · exact ih rest _ hist dir limit (by omega) hins.1 hins.2

theorem read_line_recall_safe (hist dir : List String) (limit : Nat) (input : List Nat) :
    ((lsh_read_line hist dir limit input).state).histPos ≤ hist.length ∧
    ((lsh_read_line hist dir limit input).state).histOob = false := by
  unfold lsh_read_line
  split
  · exact readLoop_recall_inv input.length input _ hist dir limit (le_refl _)
      (le_refl _) rfl
  · exact ⟨le_refl _, rfl⟩

/-- The logical effect of printable inserts and backspaces on the edited
line: a printable byte appends its character, a backspace (127) drops the
last character. -/
def applyEdits : List Nat → List Char → List Char
  | [], acc => acc
  | b :: bs, acc =>
    if b = 127 then applyEdits bs acc.dropLast
    else applyEdits bs (acc ++ [Char.ofNat b])

set_option maxRecDepth 40000 in
lemma char_ofNat_ne_nul : ∀ b : Nat, b < 256 → 32 ≤ b → Char.ofNat b ≠ '\x00' := by
  decide

/-- Loop invariant of `readLoop` on the printable/backspace alphabet: the
first `position` buffer cells spell exactly the logical line `acc`, the
buffer is as long as the claimed capacity, the insertion point is strictly
inside it, no write has ever gone out of bounds, the line is NUL-free, and
the capacity is a whole number of `LSH_RL_BUFSIZE` increments. -/
def EditInv (s : EditState) (acc : List Char) : Prop :=
  s.position = acc.length ∧
  s.mem.take acc.length = acc ∧
  s.mem.length = s.bufsize ∧
  acc.length < s.bufsize ∧
  s.oob = false ∧
  '\x00' ∉ acc ∧
  LSH_RL_BUFSIZE ∣ s.bufsize

lemma backspace_editInv (s : EditState) (acc : List Char) (h : EditInv s acc) :
    EditInv (backspaceHandle s) acc.dropLast := by
  obtain ⟨h1, h2, h3, h4, h5, h6, h7⟩ := h
  unfold backspaceHandle
  by_cases hpos : s.position > 0
  · rw [if_pos hpos]
    refine ⟨?_, ?_, h3, ?_, h5, ?_, h7⟩
    · show s.position - 1 = acc.dropLast.length
      rw [List.length_dropLast]
      omega
    · show s.mem.take acc.dropLast.length = acc.dropLast
      rw [List.length_dropLast]
      calc s.mem.take (acc.length - 1)
          = s.mem.take (min (acc.length - 1) acc.length) := by
            rw [Nat.min_eq_left (by omega)]
        _ = (s.mem.take acc.length).take (acc.length - 1) :=
            (List.take_take _ _ _).symm
        _ = acc.take (acc.length - 1) := by rw [h2]
        _ = acc.dropLast := (List.dropLast_eq_take acc).symm
    · show acc.dropLast.length < s.bufsize
      rw [List.length_dropLast]
      omega
    · intro hmem
      rw [List.dropLast_eq_take] at hmem
      exact h6 (List.take_subset _ _ hmem)
  · rw [if_neg hpos]
    have hacc : acc = [] := List.eq_nil_of_length_eq_zero (by omega)
    subst hacc
    exact ⟨h1, h2, h3, h4, h5, h6, h7⟩

lemma insert_unfold (s : EditState) (b : Nat) (hb1 : 32 ≤ b)
    (hpos : s.position < s.bufsize) :
    insertHandle b s =
      { s with mem := s.mem.set s.position (Char.ofNat b),
               position := s.position + 1 } := by
  unfold insertHandle memWrite
  rw [if_pos hb1, if_pos hpos]

lemma set_take_succ (s : EditState) (acc : List Char) (b : Nat)
    (h2 : s.mem.take acc.length = acc) (h3 : s.mem.length = s.bufsize)
    (h4 : acc.length < s.bufsize) :
    (s.mem.set acc.length (Char.ofNat b)).take (acc.length + 1) =
      acc ++ [Char.ofNat b] := by
  rw [List.set_eq_take_cons_drop _ (by omega), h2, List.take_append]
  simp

lemma insert_editInv (s : EditState) (acc : List Char) (b : Nat)
    (h : EditInv s acc) (hb1 : 32 ≤ b) (hb2 : b < 256)
    (hfit : acc.length + 1 < s.bufsize) :
    EditInv { s with mem := s.mem.set acc.length (Char.ofNat b),
                     position := acc.length + 1 } (acc ++ [Char.ofNat b]) := by
  obtain ⟨h1, h2, h3, h4, h5, h6, h7⟩ := h
  refine ⟨?_, ?_, ?_, ?_, h5, ?_, h7⟩
  · show acc.length + 1 = (acc ++ [Char.ofNat b]).length
    simp
  · show (s.mem.set acc.length (Char.ofNat b)).take (acc ++ [Char.ofNat b]).length =
      acc ++ [Char.ofNat b]
    have hl : (acc ++ [Char.ofNat b]).length = acc.length + 1 := by simp
    rw [hl]
    exact set_take_succ s acc b h2 h3 h4
  · show (s.mem.set acc.length (Char.ofNat b)).length = s.bufsize
    rw [List.length_set]
    exact h3
  · show (acc ++ [Char.ofNat b]).length < s.bufsize
    have hl : (acc ++ [Char.ofNat b]).length = acc.length + 1 := by simp
    omega
  · intro hmem
    rcases List.mem_append.1 hmem with hx | hx
    · exact h6 hx
    · have hx2 : '\x00' = Char.ofNat b := by simpa using hx
      exact char_ofNat_ne_nul b hb2 hb1 hx2.symm

lemma insert_grow_editInv (s : EditState) (acc : List Char) (b : Nat)
    (h : EditInv s acc) (hb1 : 32 ≤ b) (hb2 : b < 256)
    (hgrow : s.bufsize = acc.length + 1) :
    EditInv { s with
        mem := (s.mem.set acc.length (Char.ofNat b)) ++ List.replicate LSH_RL_BUFSIZE '#',
        position := acc.length + 1,
        bufsize := s.bufsize + LSH_RL_BUFSIZE } (acc ++ [Char.ofNat b]) := by
  obtain ⟨h1, h2, h3, h4, h5, h6, h7⟩ := h
  have hLpos : 0 < LSH_RL_BUFSIZE := by norm_num [LSH_RL_BUFSIZE]
  refine ⟨?_, ?_, ?_, ?_, h5, ?_, ?_⟩
  · show acc.length + 1 = (acc ++ [Char.ofNat b]).length
    simp
  · show ((s.mem.set acc.length (Char.ofNat b)) ++
        List.replicate LSH_RL_BUFSIZE '#').take (acc ++ [Char.ofNat b]).length =
      acc ++ [Char.ofNat b]
    have hl : (acc ++ [Char.ofNat b]).length = acc.length + 1 := by simp
    rw [hl, List.take_append_of_le_length (by rw [List.length_set]; omega)]
    exact set_take_succ s acc b h2 h3 h4
  · show ((s.mem.set acc.length (Char.ofNat b)) ++
        List.replicate LSH_RL_BUFSIZE '#').length = s.bufsize + LSH_RL_BUFSIZE
    rw [List.length_append, List.length_set, List.length_replicate, h3]
  · show (acc ++ [Char.ofNat b]).length < s.bufsize + LSH_RL_BUFSIZE
    have hl : (acc ++ [Char.ofNat b]).length = acc.length + 1 := by simp
    omega
  · intro hmem
    rcases List.mem_append.1 hmem with hx | hx
    · exact h6 hx
    · have hx2 : '\x00' = Char.ofNat b := by simpa using hx
      exact char_ofNat_ne_nul b hb2 hb1 hx2.symm
  · exact Nat.dvd_add h7 (dvd_refl _)

lemma readLoop_edit : ∀ (bs : List Nat) (acc : List Char) (s : EditState)
    (hist dir : List String) (limit : Nat),
    (∀ b ∈ bs, b = 127 ∨ (32 ≤ b ∧ b < 256 ∧ b ≠ 127)) →
    EditInv s acc →
    acc.length + bs.length + LSH_RL_BUFSIZE ≤ limit →
    ∃ s2 hist2,
      readLoop hist dir limit s (bs ++ [10]) =
        ReadResult.line ⟨applyEdits bs acc⟩ hist2 s2 ∧
      s2.oob = false ∧ s2.position < s2.bufsize ∧ LSH_RL_BUFSIZE ∣ s2.bufsize := by
  intro bs
  induction bs with
  | nil =>
    intro acc s hist dir limit hbytes hinv hbudget
    obtain ⟨h1, h2, h3, h4, h5, h6, h7⟩ := hinv
    rw [List.nil_append, readLoop.eq_def]
    dsimp only
    rw [if_neg (by omega : ¬ (10 : Nat) = 27), if_pos (rfl : (10 : Nat) = 10)]
    unfold newlineHandle memWrite
    rw [h1, if_pos h4]
    dsimp only [cstr]
    have hset : s.mem.set acc.length '\x00' =
        acc ++ '\x00' :: s.mem.drop (acc.length + 1) := by
      rw [List.set_eq_take_cons_drop _ (by omega), h2]
    have htw : (s.mem.set acc.length '\x00').takeWhile (fun c => c != '\x00') = acc := by
      rw [hset, takeWhile_append_all _ _ _ (fun a ha => by
        simp only [bne_iff_ne, ne_eq]
        intro hx
        exact h6 (hx ▸ ha))]
      simp
    rw [htw]
    refine ⟨_, _, rfl, h5, ?_, h7⟩
    show acc.length < s.bufsize
    omega
  | cons b bs ih =>
    intro acc s hist dir limit hbytes hinv hbudget
    have hb := hbytes b (List.mem_cons_self b bs)
    have hbytes2 : ∀ x ∈ bs, x = 127 ∨ (32 ≤ x ∧ x < 256 ∧ x ≠ 127) :=
      fun x hx => hbytes x (List.mem_cons_of_mem b hx)
    have hbudget2 : acc.length + bs.length + 1 + LSH_RL_BUFSIZE ≤ limit := by
      simp only [List.length_cons] at hbudget
      omega
    have h1 : s.position = acc.length := hinv.1
    have h4 : acc.length < s.bufsize := hinv.2.2.2.1
    rw [List.cons_append, readLoop.eq_def]
    dsimp only
    rcases hb with hb | ⟨hb1, hb2, hb3⟩
    · subst hb
      rw [if_neg (by omega : ¬ (127 : Nat) = 27), if_neg (by omega : ¬ (127 : Nat) = 10),
        if_neg (by omega : ¬ (127 : Nat) = 9), if_pos (rfl : (127 : Nat) = 127)]
      rw [show applyEdits (127 :: bs) acc = applyEdits bs acc.dropLast from by
        simp [applyEdits]]
      exact ih acc.dropLast _ hist dir limit hbytes2
        (backspace_editInv s acc hinv)
        (by rw [List.length_dropLast]; omega)
    · rw [if_neg (by omega : ¬ b = 27), if_neg (by omega : ¬ b = 10),
        if_neg (by omega : ¬ b = 9), if_neg hb3]
      rw [insert_unfold s b hb1 (by omega), h1]
      dsimp only
      rw [show applyEdits (b :: bs) acc = applyEdits bs (acc ++ [Char.ofNat b]) from by
        simp [applyEdits, hb3]]
      by_cases hgrow : s.bufsize ≤ acc.length + 1
      · rw [if_pos hgrow, if_pos (show s.bufsize + LSH_RL_BUFSIZE ≤ limit by omega)]
        exact ih (acc ++ [Char.ofNat b]) _ hist dir limit hbytes2
          (insert_grow_editInv s acc b ⟨h1, hinv.2.1, hinv.2.2.1, h4, hinv.2.2.2.2.1,
            hinv.2.2.2.2.2.1, hinv.2.2.2.2.2.2⟩ hb1 hb2 (by omega))
          (by simp only [List.length_append, List.length_singleton]; omega)
      · rw [if_neg hgrow]
        exact ih (acc ++ [Char.ofNat b]) _ hist dir limit hbytes2
          (insert_editInv s acc b ⟨h1, hinv.2.1, hinv.2.2.1, h4, hinv.2.2.2.2.1,
            hinv.2.2.2.2.2.1, hinv.2.2.2.2.2.2⟩ hb1 hb2 (by omega))
          (by simp only [List.length_append, List.length_singleton]; omega)

/-- C7: edit-buffer growth safety and content fidelity.  For every
sequence of printable bytes (codepoint 32-255, excluding 127) and
backspaces (127), of any length relative to the initial 1024-character
capacity, and any allocation budget large enough for the needed
reallocations: `lsh_read_line` returns the line obtained by applying the
inserts and backspaces in order (`applyEdits`), no buffer write ever goes
out of bounds (`oob` stays false — capacity is grown by the fixed
`LSH_RL_BUFSIZE` increment whenever the insertion point would exceed it,
so no earlier character is lost or corrupted), the final insertion point
is strictly inside the final capacity, and the capacity is a whole number
of `LSH_RL_BUFSIZE` increments. -/
theorem read_line_edit_fidelity (bytes : List Nat) (hist dir : List String) (limit : Nat)
    (hbytes : ∀ b ∈ bytes, b = 127 ∨ (32 ≤ b ∧ b < 256 ∧ b ≠ 127))
    (hlimit : bytes.length + LSH_RL_BUFSIZE ≤ limit) :
    ∃ s2 hist2,
      lsh_read_line hist dir limit (bytes ++ [10]) =
        ReadResult.line ⟨applyEdits bytes []⟩ hist2 s2 ∧
      s2.oob = false ∧ s2.position < s2.bufsize ∧ LSH_RL_BUFSIZE ∣ s2.bufsize := by
  unfold lsh_read_line
  rw [if_pos (by omega : LSH_RL_BUFSIZE ≤ limit)]
  refine readLoop_edit bytes [] _ hist dir limit hbytes
    ⟨rfl, rfl, by simp, by norm_num [LSH_RL_BUFSIZE], rfl, by simp, dvd_refl _⟩ ?_
  simp only [List.length_nil, Nat.zero_add]
  omega

/-- Witness for C7 at a concrete input: typing `h`, `i`, backspace, `!`
then newline yields the line `h!`. -/
theorem read_line_edit_fidelity_w :
    ∃ s2 hist2,
      lsh_read_line [] [] 2048 ([104, 105, 127, 33] ++ [10]) =
        ReadResult.line ⟨applyEdits [104, 105, 127, 33] []⟩ hist2 s2 ∧
      s2.oob = false ∧ s2.position < s2.bufsize ∧ LSH_RL_BUFSIZE ∣ s2.bufsize :=
  read_line_edit_fidelity [104, 105, 127, 33] [] [] 2048 (by decide)
    (by norm_num [LSH_RL_BUFSIZE])
